import Mathlib

/-!
Shallow embedding of the HyperLogLog implementation in hyperloglog.go
(package pds).  Go values are modelled as follows.

uint32 arithmetic is Nat arithmetic with explicit reduction modulo 2 ^ 32
where the Go code can wrap.

float64 values are modelled exactly: every float64 operation this program
performs on the inputs relevant to the theorems below is exact (sums of
integer or half-integer terms far below 2 ^ 53, multiplications and
divisions by powers of two, math.Pow of 2 at small integer exponents,
math.Log2 of a power of two, math.Log at 1), so finite values are
represented by exact rationals.  The IEEE special values +Inf, -Inf and
NaN produced by the code are represented explicitly by the GoF type, and
finite transcendental results of math.Log are kept symbolic.

The Go conversions int(f) and int64(f) truncate toward zero for in-range
finite f; for infinities and NaN the Go specification makes the result
implementation-dependent, which the model makes explicit.
-/

namespace Pds

/-- Constant byteSize from the source. -/
def byteSize : Nat := 8

/-- Constant bytesIn32Bits from the source (declared there but never used). -/
def bytesIn32Bits : Nat := 4

/-- Function hash: FNV-1a of the UTF-8 bytes of the string, as computed by
hash/fnv New32a followed by Write and Sum32: offset basis 2166136261, xor
each byte into the state, multiply by the prime 16777619, all on uint32.
The byte sequence of the Go conversion []byte(value) is the UTF-8
encoding, here written as the character-wise encoding underlying
String.toUTF8. -/
def hash (value : String) : Nat :=
  (value.data.flatMap String.utf8EncodeChar).foldl
    (fun h b => ((h ^^^ b.toNat) * 16777619) % 2 ^ 32) 2166136261

/-- Fuel-based binary logarithm: log2fuel fuel n is the floor of log2 n
whenever fuel is at least n (lemma log2fuel_eq_log2 below identifies it
with Nat.log2); the fuel makes the recursion structural, so concrete
register states can be evaluated inside proofs. -/
def log2fuel : Nat → Nat → Nat
  | 0, _ => 0
  | fuel + 1, n => if n ≥ 2 then log2fuel fuel (n / 2) + 1 else 0

/-- Binary logarithm used by the model of findRun. -/
def natLog2 (n : Nat) : Nat := log2fuel n n

/-- Function findRun: int(math.Log2(float64(a & -a))) on a uint32 argument.
The Go expression a & -a (negation is two-complement on uint32) isolates
the lowest set bit, so it is 0 or a power of two; math.Log2 is exact on
every float64 power of two (the Frexp fast path of its implementation),
hence on nonzero input the conversion to int is exact and the result
equals Nat.log2 of the isolated bit.  For input 0 the code computes
int(math.Log2(0)) = int(-Inf); the Go specification leaves that conversion
implementation-dependent, and every mainstream Go target (amd64 cvttsd2si,
arm64 fcvtzs) produces the minimum int64, which is the value modelled
here. -/
def findRun (a : Nat) : ℤ :=
  let isolated := (a % 2 ^ 32) &&& ((2 ^ 32 - a % 2 ^ 32) % 2 ^ 32)
  if isolated = 0 then -(2 ^ 63) else (natLog2 isolated : ℤ)

/-- Method updateLongestRun on bucket: a bucket is its single int field
cardinalityEstimation, so the method maps the current register value b and
the observed remainder to the new register value, keeping the larger of b
and findRun(value) + 1. -/
def updateLongestRun (b : ℤ) (value : Nat) : ℤ :=
  let cardinalityEstimation := findRun value + 1
  if b < cardinalityEstimation then cardinalityEstimation else b

/-- Method Len on bucketGroup ([]bucket, modelled as List ℤ):
float64(len(bg)). -/
def bgLen (bg : List ℤ) : ℚ := bg.length

/-- Method countZeroBuckets: float64 count of the buckets whose
cardinalityEstimation is 0. -/
def countZeroBuckets (bg : List ℤ) : ℚ :=
  ((bg.filter (fun b => b == 0)).length : ℚ)

/-- Model of the float64 values that reach math.Log and the final int64
conversion: exact finite rationals, the IEEE special values, and two
symbolic constructors for finite transcendental values produced by
math.Log (logFin q stands for the real number ln q at positive q other
than 1, and mulLog a q stands for a * ln q). -/
inductive GoF where
  | fin (q : ℚ)
  | inf
  | ninf
  | nan
  | logFin (q : ℚ)
  | mulLog (a q : ℚ)
deriving DecidableEq, Repr

/-- Model of float64 division a / b of finite values: IEEE division by
zero yields a signed infinity (NaN for 0 / 0) and never panics in Go. -/
def goDiv (a b : ℚ) : GoF :=
  if b = 0 then if 0 < a then .inf else if a < 0 then .ninf else .nan
  else .fin (a / b)

/-- Model of math.Log.  Log 1 = 0 and Log(+Inf) = +Inf exactly; Log 0 is
-Inf and Log of a negative value is NaN; any other positive finite input
has a finite transcendental image, kept symbolic.  The two symbolic
constructors never reach math.Log in the modelled program (the code
applies Log exactly once, to a quotient of two rationals), so the values
chosen for them are immaterial. -/
def goLog : GoF → GoF
  | .fin q =>
      if q < 0 then .nan else if q = 0 then .ninf
      else if q = 1 then .fin 0 else .logFin q
  | .inf => .inf
  | .ninf => .nan
  | .nan => .nan
  | .logFin _ => .nan
  | .mulLog _ _ => .nan

/-- Model of the float64 product a * x with a finite left factor a. -/
def goMulFin (a : ℚ) : GoF → GoF
  | .fin q => .fin (a * q)
  | .inf => if 0 < a then .inf else if a < 0 then .ninf else .nan
  | .ninf => if 0 < a then .ninf else if a < 0 then .inf else .nan
  | .nan => .nan
  | .logFin q => .mulLog a q
  | .mulLog b q => .mulLog (a * b) q

/-- Truncation toward zero of a rational, the rounding used by the Go
conversion int64(f) on in-range finite f. -/
def ratTrunc (q : ℚ) : ℤ := q.num.sign * ((q.num.natAbs / q.den : ℕ) : ℤ)

/-- Model of the Go conversion int64(f).  On the finite rationals reached
by this program the conversion truncates toward zero (all are far inside
the int64 range).  For infinities and NaN the Go specification makes the
result implementation-dependent (mainstream targets produce the minimum
int64 for every such input), and on the symbolic log values the truncation
is a transcendental computation that this exact model does not evaluate;
the model returns none in all of those cases. -/
def goToInt64 : GoF → Option ℤ
  | .fin q => some (ratTrunc q)
  | _ => none

/-- Method smallRangeCorrection: totalBuckets * math.Log(totalBuckets /
countZeroBuckets(bg)).  The prediction argument is accepted and ignored,
exactly as in the source. -/
def smallRangeCorrection (bg : List ℤ) (prediction totalBuckets : ℚ) : GoF :=
  goMulFin totalBuckets (goLog (goDiv totalBuckets (countZeroBuckets bg)))

/-- Method correct: apply the small range correction when the prediction
is at most 2.5 times the bucket count, otherwise return the prediction. -/
def correct (bg : List ℤ) (prediction : ℚ) : GoF :=
  if prediction ≤ 2.5 * bgLen bg then
    smallRangeCorrection bg prediction (bgLen bg)
  else .fin prediction

/-- Total computed by harmonicMean: the sum over the buckets of
math.Pow(2, -cardinalityEstimation). -/
def sumTerm (bg : List ℤ) : ℚ := (bg.map (fun v => (2 : ℚ) ^ (-v))).sum

/-- Raw estimate computed inside harmonicMean before correction:
(constant * Len * Len) / total. -/
def rawEstimate (bg : List ℤ) (constant : ℚ) : ℚ :=
  (constant * bgLen bg * bgLen bg) / sumTerm bg

/-- Method harmonicMean: int64(correct((constant * Len * Len) / total)).
For every nonempty bucket group the divisor total is a positive rational,
so the rational division agrees with the float64 one. -/
def harmonicMean (bg : List ℤ) (constant : ℚ) : Option ℤ :=
  goToInt64 (correct bg (rawEstimate bg constant))

/-- Structure HyperLogLog from the source; the bucketGroup field is the
slice of buckets, each bucket being its int field cardinalityEstimation. -/
structure HyperLogLog where
  constant : ℚ
  indexBits : Nat
  mBuckets : ℤ
  bucketGroup : List ℤ
deriving DecidableEq, Repr

/-- Error message produced by NewHyperLogLog for an invalid precision. -/
def invalidPrecisionMessage : String := "index bits need to be in interval 4>=x>=16"

/-- Function NewHyperLogLog: rejects indexBits < 4 or indexBits > 16 with
the error above, otherwise computes mBuckets = 2 ^ indexBits (math.Pow and
the int64 conversion are exact here), selects the bias constant, and
allocates the zero-valued bucket group. -/
def NewHyperLogLog (indexBits : Nat) : Except String HyperLogLog :=
  if indexBits < 4 ∨ indexBits > 16 then .error invalidPrecisionMessage
  else
    let mBuckets : Nat := 2 ^ indexBits
    let constant : ℚ :=
      if indexBits = 4 then 0.673
      else if indexBits = 5 then 0.697
      else if indexBits = 6 then 0.709
      else 0.7213 / (1 + 1.079 / (mBuckets : ℚ))
    .ok
      { constant := constant
        indexBits := indexBits
        mBuckets := (mBuckets : ℤ)
        bucketGroup := List.replicate mBuckets 0 }

/-- Function getHeadBitTotal: the loop for i := start; i < bits+start; i++
adding uint32(math.Pow(2, i)) into x, with start = byteSize * byteNumber -
byteSize.  Every exponent this program reaches is below 16, where
math.Pow(2, i) and the uint32 conversion are exact. -/
def getHeadBitTotal (bits byteNumber : Nat) : Nat :=
  (List.range bits).foldl
    (fun x k => x + 2 ^ (byteSize * byteNumber - byteSize + k)) 0

/-- Function getSignificantBits from the source. -/
def getSignificantBits (n : Nat) : Nat :=
  if n ≤ byteSize then getHeadBitTotal n 1
  else getHeadBitTotal byteSize 1 + getHeadBitTotal (n - byteSize) 2

/-- Method splitBinary on HyperLogLog, parameterized here by the indexBits
field it reads: the pair of h AND getSignificantBits(indexBits) and
(h - index) >> indexBits.  The uint32 subtraction h - index never wraps
because index = h AND mask is at most h. -/
def splitBinary (indexBits h : Nat) : Nat × Nat :=
  let binaryTotal := getSignificantBits indexBits
  let binaryIndex := h &&& binaryTotal
  (binaryIndex, (h - binaryIndex) >>> indexBits)

/-- Method Add: hash the string, split the hash, update the indexed
bucket.  The in-place update of the Go slice element becomes a functional
List.set of the updated bucket value. -/
def Add (hll : HyperLogLog) (s : String) : HyperLogLog :=
  let h := hash s
  let split := splitBinary hll.indexBits h
  { hll with
    bucketGroup := hll.bucketGroup.set split.1
      (updateLongestRun (hll.bucketGroup.getD split.1 0) split.2) }

/-- Method EstimateCardinality. -/
def EstimateCardinality (hll : HyperLogLog) : Option ℤ :=
  harmonicMean hll.bucketGroup hll.constant

/-- Iterated Add over a list of strings (a sequence of Add calls). -/
def runAdds (hll : HyperLogLog) (L : List String) : HyperLogLog :=
  L.foldl Add hll

/-- Register observation used by the theorems: the value of bucket j, with
default 0 out of range (every index the theorems use is in range). -/
def register (hll : HyperLogLog) (j : Nat) : ℤ := hll.bucketGroup.getD j 0

/-- Invariant maintained by the constructor and by Add: a valid precision,
consistent size fields, and registers inside [0, 32 - p]. -/
def Inv (p : Nat) (hll : HyperLogLog) : Prop :=
  4 ≤ p ∧ p ≤ 16 ∧ hll.indexBits = p ∧ hll.mBuckets = 2 ^ p ∧
  hll.bucketGroup.length = 2 ^ p ∧
  ∀ j : Nat, 0 ≤ register hll j ∧ register hll j ≤ 32 - (p:ℤ)

/-- Concrete estimator at precision 4, used by witnesses. -/
def freshFour : HyperLogLog :=
  { constant := 0.673, indexBits := 4, mBuckets := 16,
    bucketGroup := List.replicate 16 0 }

/-- Sixteen strings, one per bucket at precision 4, each hashing to an odd
remainder: adding all of them to a fresh precision 4 estimator drives
every register to exactly 1. -/
def failStrings : List String :=
  ["5", "17", "23", "24", "9", "2", "7", "11",
   "14", "26", "67", "60", "1", "13", "16", "19"]

/-- Estimator state reached from a fresh precision 4 estimator by adding
every string of failStrings. -/
def failState : HyperLogLog := runAdds freshFour failStrings

/-- Helper: the fuel-based logarithm agrees with Nat.log2 whenever the
fuel covers the argument. -/
theorem log2fuel_eq_log2 (fuel n : Nat) (h : n ≤ fuel) :
    log2fuel fuel n = Nat.log2 n := by
  induction fuel generalizing n with
  | zero =>
    have hn : n = 0 := by omega
    subst hn
    rw [Nat.log2]
    norm_num [log2fuel]
  | succ f ih =>
    simp only [log2fuel]
    rw [Nat.log2]
    by_cases h2 : n ≥ 2
    · rw [if_pos h2, if_pos h2, ih (n / 2) (by omega)]
    · rw [if_neg h2, if_neg h2]

/-- Helper: the logarithm of a power of two is its exponent. -/
theorem natLog2_two_pow (k : Nat) : natLog2 (2 ^ k) = k := by
  rw [natLog2, log2fuel_eq_log2 _ _ (le_refl _), Nat.log2_eq_log_two,
    Nat.log_pow (by norm_num)]

/-- Helper: on every valid precision the float-based mask construction of
the source agrees with the direct integer bitmask. -/
theorem getSignificantBits_eq_mask (p : Nat) (h4 : 4 ≤ p) (h16 : p ≤ 16) :
    getSignificantBits p = 2 ^ p - 1 := by
  interval_cases p <;> decide

/-- Helper: the remainder of splitBinary is the plain right shift. -/
theorem sub_index_shift (p h : Nat) :
    (h - h % 2 ^ p) >>> p = h >>> p := by
  have hdm := Nat.div_add_mod h (2 ^ p)
  have h1 : h - h % 2 ^ p = 2 ^ p * (h / 2 ^ p) := by omega
  rw [Nat.shiftRight_eq_div_pow, Nat.shiftRight_eq_div_pow, h1,
    Nat.mul_div_cancel_left _ (Nat.two_pow_pos p)]

/-- C6: for every 32-bit hash h and every precision p in [4, 16],
splitBinary returns exactly the low p bits of h as the index and the
remaining 32 - p high bits, right-aligned, as the remainder; moreover the
float-based mask construction equals the direct integer bitmask
2 ^ p - 1. -/
theorem c6_splitBinary_exact (p h : Nat) (h4 : 4 ≤ p) (h16 : p ≤ 16)
    (_hh : h < 2 ^ 32) :
    splitBinary p h = (h &&& (2 ^ p - 1), h >>> p) ∧
    getSignificantBits p = 2 ^ p - 1 := by
  have hmask := getSignificantBits_eq_mask p h4 h16
  refine ⟨?_, hmask⟩
  simp only [splitBinary, hmask, Nat.and_pow_two_sub_one_eq_mod,
    sub_index_shift]

/-- Witness for C6 at the instance given by the spec: hash 213 with
precision 4 yields index 5 and remainder 13. -/
theorem c6_splitBinary_exact_witness : splitBinary 4 213 = (5, 13) := by
  have h := (c6_splitBinary_exact 4 213 (by decide) (by decide) (by decide)).1
  exact h.trans (by decide)

/-- C8: construction succeeds exactly on precisions 4 to 16 and otherwise
fails with the InvalidPrecision error message, which names both bounds of
the valid interval. -/
theorem c8_construction_validation (p : Nat) :
    (4 ≤ p ∧ p ≤ 16 → ∃ hll, NewHyperLogLog p = .ok hll) ∧
    (p < 4 ∨ 16 < p → NewHyperLogLog p = .error invalidPrecisionMessage) := by
  constructor
  · intro h
    exact ⟨_, by unfold NewHyperLogLog; rw [if_neg (by omega)]⟩
  · intro h
    unfold NewHyperLogLog
    rw [if_pos (by omega)]

/-- Witness for C8: precisions 3 and 17 fail, precisions 4 and 16
succeed. -/
theorem c8_construction_validation_witness :
    NewHyperLogLog 3 = .error invalidPrecisionMessage ∧
    NewHyperLogLog 17 = .error invalidPrecisionMessage ∧
    (∃ hll, NewHyperLogLog 4 = .ok hll) ∧
    (∃ hll, NewHyperLogLog 16 = .ok hll) :=
  ⟨(c8_construction_validation 3).2 (by decide),
   (c8_construction_validation 17).2 (by decide),
   (c8_construction_validation 4).1 (by decide),
   (c8_construction_validation 16).1 (by decide)⟩

/-- Helper: two summands of a power of two, each below it, have disjoint
bits. -/
theorem land_complement_zero {t m n : Nat} (h : m + n + 1 = 2 ^ t) :
    m &&& n = 0 := by
  have hm : m < 2 ^ t := by omega
  have hn : n = 2 ^ t - (m + 1) := by omega
  apply Nat.eq_of_testBit_eq
  intro i
  rw [Nat.testBit_and, hn, Nat.testBit_two_pow_sub_succ hm, Nat.zero_testBit]
  cases hb : m.testBit i <;> simp [hb]

/-- Helper: the classic lowest-set-bit identity; for a number with k
trailing zero bits, a AND (2 ^ t - a), which is a AND -a on a t-bit
machine word, isolates 2 ^ k. -/
theorem land_neg_eq_two_pow {t k b : Nat} (h : 2 ^ k * (2 * b + 1) < 2 ^ t) :
    (2 ^ k * (2 * b + 1)) &&& (2 ^ t - 2 ^ k * (2 * b + 1)) = 2 ^ k := by
  set a := 2 ^ k * (2 * b + 1) with ha
  have hk0 : 0 < (2:Nat) ^ k := Nat.two_pow_pos k
  have hk1 : (2:Nat) ^ k < 2 ^ (k + 1) := by
    rw [pow_succ]; omega
  have ha1 : a = 2 ^ (k + 1) * b + 2 ^ k := by
    rw [ha, pow_succ]; ring
  have hpos : 0 < a := by
    rw [ha]; positivity
  have ha2 : a - 1 = 2 ^ (k + 1) * b + (2 ^ k - 1) := by omega
  have hkt : k < t := by
    have h2 : (2:Nat) ^ k ≤ a := by
      rw [ha]
      calc (2:Nat) ^ k = 2 ^ k * 1 := by ring
        _ ≤ 2 ^ k * (2 * b + 1) := Nat.mul_le_mul_left _ (by omega)
    exact (Nat.pow_lt_pow_iff_right (by norm_num)).1 (lt_of_le_of_lt h2 h)
  have hma : a - 1 < 2 ^ t := by omega
  have hbit_a : ∀ i, a.testBit i =
      if i < k + 1 then Nat.testBit (2 ^ k) i else b.testBit (i - (k + 1)) := by
    intro i
    rw [ha1]
    exact Nat.testBit_mul_pow_two_add _ hk1 i
  have hbit_a1 : ∀ i, (a - 1).testBit i =
      if i < k + 1 then Nat.testBit (2 ^ k - 1) i else b.testBit (i - (k + 1)) := by
    intro i
    rw [ha2]
    exact Nat.testBit_mul_pow_two_add _ (by omega) i
  have hsub : 2 ^ t - a = 2 ^ t - ((a - 1) + 1) := by omega
  apply Nat.eq_of_testBit_eq
  intro i
  rw [Nat.testBit_and, hsub, Nat.testBit_two_pow_sub_succ hma, hbit_a i,
    hbit_a1 i]
  rcases lt_trichotomy i k with hik | rfl | hik
  · rw [if_pos (by omega), if_pos (by omega)]
    simp only [Nat.testBit_two_pow]
    simp
    omega
  · rw [if_pos (by omega), if_pos (by omega)]
    simp [Nat.testBit_two_pow_self, Nat.testBit_two_pow_sub_one, hkt]
  · rw [if_neg (by omega), if_neg (by omega)]
    rw [Nat.testBit_two_pow_of_ne (by omega)]
    cases hx : b.testBit (i - (k + 1)) <;> simp [hx]

/-- Helper: on a nonzero 32-bit value with k trailing zero bits, findRun
returns exactly k. -/
theorem findRun_eq_trailing (w k b : Nat) (hw : w = 2 ^ k * (2 * b + 1))
    (hlt : w < 2 ^ 32) : findRun w = (k : ℤ) := by
  have hpos : 0 < w := by rw [hw]; positivity
  have h0 : w % 2 ^ 32 = w := Nat.mod_eq_of_lt hlt
  have hneg : (2 ^ 32 - w) % 2 ^ 32 = 2 ^ 32 - w := Nat.mod_eq_of_lt (by omega)
  have hiso : (w % 2 ^ 32) &&& ((2 ^ 32 - w % 2 ^ 32) % 2 ^ 32) = 2 ^ k := by
    rw [h0, hneg, hw]
    exact land_neg_eq_two_pow (hw ▸ hlt)
  unfold findRun
  rw [hiso, if_neg (Nat.pos_iff_ne_zero.mp (Nat.two_pow_pos k)),
    natLog2_two_pow]

/-- C7: for every nonzero 32-bit remainder w, written as 2 ^ k times an
odd number, so that k is the trailing zero count of w, the rank computed
during Add, namely findRun w + 1, equals k + 1, the 1-based position of
the lowest set bit. -/
theorem c7_rank_lowest_set_bit (w k b : Nat) (hw : w = 2 ^ k * (2 * b + 1))
    (hlt : w < 2 ^ 32) : findRun w + 1 = (k : ℤ) + 1 := by
  rw [findRun_eq_trailing w k b hw hlt]

/-- Witness for C7 at the instances of the spec: the ranks of 8, 1 and 6
are 4, 1 and 2. -/
theorem c7_rank_lowest_set_bit_witness :
    findRun 8 + 1 = 4 ∧ findRun 1 + 1 = 1 ∧ findRun 6 + 1 = 2 :=
  ⟨(c7_rank_lowest_set_bit 8 3 0 (by norm_num) (by norm_num)).trans
      (by norm_num),
   (c7_rank_lowest_set_bit 1 0 0 (by norm_num) (by norm_num)).trans
      (by norm_num),
   (c7_rank_lowest_set_bit 6 1 1 (by norm_num) (by norm_num)).trans
      (by norm_num)⟩

/-- C2, evaluation of the code at the failing input: on the all-zero
remainder the code computes int(math.Log2(0)) = int(-Inf), which is
implementation-dependent per the Go specification and the minimum int64 on
mainstream targets, so the resulting rank is a large negative value rather
than a defined nonnegative fallback such as 32 - p + 1, and a fresh
register is left unchanged instead of recording the maximal rank. -/
theorem c2_zero_remainder_no_fallback :
    findRun 0 = -(2 ^ 63) ∧ findRun 0 + 1 < 0 ∧ updateLongestRun 0 0 = 0 :=
  ⟨by decide, by decide, by decide⟩

/-- C4: the small-range correction is applied exactly when the raw
estimate is at most 2.5 times the bucket count; with at least one zero
register the corrected value is m * ln(m / V), and above the threshold the
raw estimate is returned unmodified. -/
theorem c4_correction_regime (bg : List ℤ) (E : ℚ)
    (hV : 0 < countZeroBuckets bg) :
    (E ≤ 2.5 * bgLen bg →
      correct bg E =
        goMulFin (bgLen bg)
          (goLog (GoF.fin (bgLen bg / countZeroBuckets bg)))) ∧
    (2.5 * bgLen bg < E → correct bg E = .fin E) := by
  constructor
  · intro hE
    unfold correct smallRangeCorrection goDiv
    rw [if_pos hE, if_neg hV.ne']
  · intro hE
    unfold correct
    rw [if_neg (not_le.mpr hE)]

/-- Witness for C4 on a concrete register state with one zero register, in
both regimes of the correction. -/
theorem c4_correction_regime_witness :
    correct [0] 0 =
      goMulFin (bgLen [0]) (goLog (GoF.fin (bgLen [0] / countZeroBuckets [0]))) ∧
    correct [0] 100 = .fin 100 :=
  ⟨(c4_correction_regime [0] 0 (by norm_num [countZeroBuckets])).1
      (by norm_num [bgLen]),
   (c4_correction_regime [0] 100 (by norm_num [countZeroBuckets])).2
      (by norm_num [bgLen])⟩

/-- Helper: the harmonicMean total over m zero registers is exactly m. -/
theorem sumTerm_replicate_zero (m : Nat) :
    sumTerm (List.replicate m (0:ℤ)) = m := by
  unfold sumTerm
  rw [List.map_replicate, List.sum_replicate]
  norm_num

/-- Helper: every one of m zero registers is counted by
countZeroBuckets. -/
theorem countZeroBuckets_replicate_zero (m : Nat) :
    countZeroBuckets (List.replicate m (0:ℤ)) = m := by
  unfold countZeroBuckets
  have hf : (List.replicate m (0:ℤ)).filter (fun b => b == 0) =
      List.replicate m 0 := by
    induction m with
    | zero => rfl
    | succ n ih => simp [List.replicate_succ, List.filter_cons, ih]
  rw [hf, List.length_replicate]

/-- Helper: on m zero registers with any bias constant at most 2.5 the
whole estimation pipeline returns exactly 0. -/
theorem harmonicMean_replicate_zero (m : Nat) (c : ℚ) (hm : 0 < m)
    (hc : c ≤ 2.5) :
    harmonicMean (List.replicate m (0:ℤ)) c = some 0 := by
  have hmQ : (0:ℚ) < m := by exact_mod_cast hm
  have hL : bgLen (List.replicate m (0:ℤ)) = m := by
    simp [bgLen]
  unfold harmonicMean rawEstimate
  rw [sumTerm_replicate_zero, hL]
  have hE : c * (m:ℚ) * m / m = c * m := by
    rw [mul_div_assoc, div_self hmQ.ne', mul_one]
  rw [hE]
  unfold correct
  rw [if_pos (by nlinarith)]
  unfold smallRangeCorrection
  rw [hL, countZeroBuckets_replicate_zero, goDiv, if_neg hmQ.ne',
    div_self hmQ.ne']
  show goToInt64 (goMulFin _ (goLog (GoF.fin 1))) = some 0
  rw [goLog]
  norm_num
  rw [goMulFin]
  norm_num [goToInt64, ratTrunc]

/-- C5: a freshly constructed estimator with any valid precision and zero
insertions, all registers 0, estimates cardinality exactly 0. -/
theorem c5_zero_insertions_estimate_zero (p : Nat) (hll : HyperLogLog)
    (h4 : 4 ≤ p) (h16 : p ≤ 16) (h : NewHyperLogLog p = .ok hll) :
    EstimateCardinality hll = some 0 := by
  unfold NewHyperLogLog at h
  rw [if_neg (by omega)] at h
  have h2 := Except.ok.inj h
  subst h2
  show harmonicMean (List.replicate (2 ^ p) 0) _ = some 0
  apply harmonicMean_replicate_zero _ _ (Nat.two_pow_pos p)
  split_ifs with hp4 hp5 hp6
  · norm_num
  · norm_num
  · norm_num
  · have hden : (1:ℚ) ≤ 1 + 1.079 / ((2 ^ p : Nat) : ℚ) := by
      have : (0:ℚ) ≤ 1.079 / ((2 ^ p : Nat) : ℚ) := by positivity
      linarith
    calc (0.7213:ℚ) / (1 + 1.079 / ((2 ^ p : Nat) : ℚ))
        ≤ 0.7213 := div_le_self (by norm_num) hden
      _ ≤ 2.5 := by norm_num

/-- Witness for C5 at precision 4. -/
theorem c5_zero_insertions_estimate_zero_witness :
    EstimateCardinality
      { constant := 0.673, indexBits := 4, mBuckets := 16,
        bucketGroup := List.replicate 16 0 } = some 0 := by
  apply c5_zero_insertions_estimate_zero 4 _ (by norm_num) (by norm_num)
  rfl

/-- Helper: the FNV hash always fits in 32 bits. -/
theorem hash_lt (s : String) : hash s < 2 ^ 32 := by
  unfold hash
  have gen : ∀ (l : List UInt8) (a : Nat), a < 2 ^ 32 →
      l.foldl (fun h b => ((h ^^^ b.toNat) * 16777619) % 2 ^ 32) a < 2 ^ 32 := by
    intro l
    induction l with
    | nil => intro a ha; exact ha
    | cons x xs ih => intro a _; exact ih _ (Nat.mod_lt _ (by norm_num))
  exact gen _ _ (by norm_num)

/-- Helper: the bucket index produced by splitBinary is below 2 ^ p. -/
theorem splitBinary_index_lt (p h : Nat) (h4 : 4 ≤ p) (h16 : p ≤ 16) :
    (splitBinary p h).1 < 2 ^ p := by
  show h &&& getSignificantBits p < 2 ^ p
  rw [getSignificantBits_eq_mask p h4 h16, Nat.and_pow_two_sub_one_eq_mod]
  exact Nat.mod_lt _ (Nat.two_pow_pos p)

/-- Helper: the remainder produced by splitBinary is the right shift of the
hash by p. -/
theorem splitBinary_remainder (p h : Nat) (h4 : 4 ≤ p) (h16 : p ≤ 16) :
    (splitBinary p h).2 = h >>> p := by
  show (h - (h &&& getSignificantBits p)) >>> p = h >>> p
  rw [getSignificantBits_eq_mask p h4 h16, Nat.and_pow_two_sub_one_eq_mod,
    sub_index_shift]

/-- Helper: the remainder of a 32-bit hash has at most 32 - p bits. -/
theorem shiftRight_lt (p h : Nat) (hp : p ≤ 32) (hh : h < 2 ^ 32) :
    h >>> p < 2 ^ (32 - p) := by
  rw [Nat.shiftRight_eq_div_pow]
  apply Nat.div_lt_of_lt_mul
  calc h < 2 ^ 32 := hh
    _ = 2 ^ p * 2 ^ (32 - p) := by
        rw [← pow_add]
        congr 1
        omega

/-- Helper: the rank findRun w + 1 computed on any remainder of at most
32 - p bits never exceeds 32 - p (on the all-zero remainder it is the
large negative implementation-dependent value). -/
theorem findRun_add_one_le (p w : Nat) (hp : p ≤ 31) (hw : w < 2 ^ (32 - p)) :
    findRun w + 1 ≤ (32:ℤ) - p := by
  by_cases h0 : w = 0
  · subst h0
    have h1 : findRun 0 = -(2 ^ 63) := by decide
    rw [h1]
    have : (p:ℤ) ≤ 31 := by exact_mod_cast hp
    omega
  · obtain ⟨k, m, hm2, hw2⟩ :=
      Nat.exists_eq_pow_mul_and_not_dvd h0 2 (by norm_num)
    have hmod : m % 2 = 1 := by
      rcases Nat.mod_two_eq_zero_or_one m with hmm | hmm
      · exact absurd (Nat.dvd_iff_mod_eq_zero.mpr hmm) hm2
      · exact hmm
    obtain ⟨b, hb⟩ : ∃ b, m = 2 * b + 1 := ⟨m / 2, by omega⟩
    have hw32 : w < 2 ^ 32 :=
      lt_of_lt_of_le hw (Nat.pow_le_pow_right (by norm_num) (by omega))
    have heq := findRun_eq_trailing w k b (by rw [hw2, hb]) hw32
    rw [heq]
    have h2k : (2:Nat) ^ k ≤ w := by
      rw [hw2, hb]
      calc (2:Nat) ^ k = 2 ^ k * 1 := by ring
        _ ≤ 2 ^ k * (2 * b + 1) := Nat.mul_le_mul_left _ (by omega)
    have hk : k < 32 - p :=
      (Nat.pow_lt_pow_iff_right (by norm_num)).1 (lt_of_le_of_lt h2k hw)
    omega

/-- Helper: a register update never lowers the register. -/
theorem updateLongestRun_mono (b : ℤ) (w : Nat) :
    b ≤ updateLongestRun b w := by
  simp only [updateLongestRun]
  split <;> omega

/-- Helper: a register update keeps the register inside [0, 32 - p] when
the remainder has at most 32 - p bits. -/
theorem updateLongestRun_bounds (p : Nat) (b : ℤ) (w : Nat) (hp : p ≤ 31)
    (hw : w < 2 ^ (32 - p)) (hb0 : 0 ≤ b) (hb : b ≤ 32 - (p:ℤ)) :
    0 ≤ updateLongestRun b w ∧ updateLongestRun b w ≤ 32 - (p:ℤ) := by
  have hr := findRun_add_one_le p w hp hw
  simp only [updateLongestRun]
  split <;> constructor <;> omega

/-- Helper: reading back the register just written. -/
theorem set_getD_self (l : List ℤ) (i : Nat) (v : ℤ) (hi : i < l.length) :
    (l.set i v).getD i 0 = v := by
  rw [List.getD_eq_getElem?_getD, List.getElem?_set_self hi]
  rfl

/-- Helper: updating a register twice with the same remainder equals
updating it once. -/
theorem updateLongestRun_idem (b : ℤ) (w : Nat) :
    updateLongestRun (updateLongestRun b w) w = updateLongestRun b w := by
  simp only [updateLongestRun]
  split <;> (try split) <;> omega

/-- Helper: the register array after one Add, pointwise. -/
theorem register_add (hll : HyperLogLog) (s : String) (j : Nat) :
    register (Add hll s) j =
      if (splitBinary hll.indexBits (hash s)).1 = j ∧
          (splitBinary hll.indexBits (hash s)).1 < hll.bucketGroup.length then
        updateLongestRun
          (register hll (splitBinary hll.indexBits (hash s)).1)
          (splitBinary hll.indexBits (hash s)).2
      else register hll j := by
  simp only [register, Add]
  by_cases hij : (splitBinary hll.indexBits (hash s)).1 = j
  · by_cases hlt :
        (splitBinary hll.indexBits (hash s)).1 < hll.bucketGroup.length
    · rw [if_pos ⟨hij, hlt⟩]
      subst hij
      rw [List.getD_eq_getElem?_getD, List.getElem?_set_self hlt]
      rfl
    · rw [if_neg (by tauto)]
      subst hij
      rw [List.set_eq_of_length_le (by omega)]
  · rw [if_neg (by tauto)]
    simp only [List.getD_eq_getElem?_getD]
    rw [List.getElem?_set_ne hij]

/-- Helper: one Add never lowers any register. -/
theorem register_le_add (hll : HyperLogLog) (s : String) (j : Nat) :
    register hll j ≤ register (Add hll s) j := by
  rw [register_add]
  split
  · rename_i hc
    rw [← hc.1]
    exact updateLongestRun_mono _ _
  · exact le_refl _

/-- Helper: a sequence of Adds never lowers any register. -/
theorem register_le_runAdds (hll : HyperLogLog) (L : List String) (j : Nat) :
    register hll j ≤ register (runAdds hll L) j := by
  induction L generalizing hll with
  | nil => exact le_refl _
  | cons x xs ih =>
    calc register hll j ≤ register (Add hll x) j := register_le_add hll x j
      _ ≤ register (runAdds (Add hll x) xs) j := ih (Add hll x)

/-- Helper: the constructor establishes the invariant. -/
theorem Inv_new (p : Nat) (hll : HyperLogLog) (h4 : 4 ≤ p) (h16 : p ≤ 16)
    (h : NewHyperLogLog p = .ok hll) : Inv p hll := by
  unfold NewHyperLogLog at h
  rw [if_neg (by omega)] at h
  have h2 := Except.ok.inj h
  subst h2
  refine ⟨h4, h16, rfl, by push_cast; rfl, List.length_replicate .., ?_⟩
  intro j
  have hz : register
      { constant := if p = 4 then 0.673 else if p = 5 then 0.697
          else if p = 6 then 0.709
          else 0.7213 / (1 + 1.079 / ((2 ^ p : Nat) : ℚ)),
        indexBits := p, mBuckets := ((2 ^ p : Nat) : ℤ),
        bucketGroup := List.replicate (2 ^ p) 0 } j = 0 := by
    show (List.replicate (2 ^ p) (0:ℤ)).getD j 0 = 0
    rw [List.getD_eq_getElem?_getD, List.getElem?_replicate]
    split <;> rfl
  rw [hz]
  have hcast : (p:ℤ) ≤ 16 := by exact_mod_cast h16
  omega

/-- Helper: Add preserves the invariant. -/
theorem Inv_add (p : Nat) (hll : HyperLogLog) (s : String) (h : Inv p hll) :
    Inv p (Add hll s) := by
  obtain ⟨h4, h16, hbits, hm, hlen, hreg⟩ := h
  refine ⟨h4, h16, hbits, hm, ?_, ?_⟩
  · show (_ : List ℤ).length = 2 ^ p
    simp only [Add]
    rw [List.length_set, hlen]
  · intro j
    rw [register_add]
    split
    · apply updateLongestRun_bounds p _ _ (by omega)
      · rw [hbits, splitBinary_remainder p _ h4 h16]
        exact shiftRight_lt p _ (by omega) (hash_lt s)
      · exact (hreg _).1
      · exact (hreg _).2
    · exact hreg j

/-- Helper: the invariant survives any sequence of Adds. -/
theorem Inv_runAdds (p : Nat) (hll : HyperLogLog) (L : List String)
    (h : Inv p hll) : Inv p (runAdds hll L) := by
  induction L generalizing hll with
  | nil => exact h
  | cons x xs ih => exact ih _ (Inv_add p hll x h)

/-- Helper: a constructed estimator has a valid precision. -/
theorem valid_of_new (p : Nat) (hll : HyperLogLog)
    (h : NewHyperLogLog p = .ok hll) : 4 ≤ p ∧ p ≤ 16 := by
  by_contra hcon
  unfold NewHyperLogLog at h
  rw [if_pos (by omega)] at h
  exact Except.noConfusion h

/-- C9: on every estimator reached from a valid construction by any
sequence of Adds, the bucket index any Add would use lies in [0, m), every
register is nonnegative and at most 33 - p, and extending the sequence of
Adds never lowers any register. -/
theorem c9_register_invariants (p : Nat) (hll0 : HyperLogLog)
    (h : NewHyperLogLog p = .ok hll0) (L : List String) :
    (∀ s : String,
        (0:ℤ) ≤ ((splitBinary (runAdds hll0 L).indexBits (hash s)).1 : ℤ) ∧
        ((splitBinary (runAdds hll0 L).indexBits (hash s)).1 : ℤ) <
          (runAdds hll0 L).mBuckets) ∧
    (∀ j : Nat, 0 ≤ register (runAdds hll0 L) j ∧
        register (runAdds hll0 L) j ≤ 33 - (p:ℤ)) ∧
    (∀ (L2 : List String) (j : Nat),
        register (runAdds hll0 L) j ≤ register (runAdds hll0 (L ++ L2)) j) := by
  have hp := valid_of_new p hll0 h
  have hInv := Inv_runAdds p hll0 L (Inv_new p hll0 hp.1 hp.2 h)
  obtain ⟨h4, h16, hbits, hm, hlen, hreg⟩ := hInv
  refine ⟨?_, ?_, ?_⟩
  · intro s
    refine ⟨by positivity, ?_⟩
    rw [hbits, hm]
    exact_mod_cast splitBinary_index_lt p (hash s) h4 h16
  · intro j
    have hcast : (p:ℤ) ≤ 16 := by exact_mod_cast h16
    have := (hreg j).2
    exact ⟨(hreg j).1, by omega⟩
  · intro L2 j
    have hsplit : runAdds hll0 (L ++ L2) = runAdds (runAdds hll0 L) L2 := by
      unfold runAdds
      exact List.foldl_append ..
    rw [hsplit]
    exact register_le_runAdds _ L2 j

/-- Witness for C9 at precision 4 with no prior Adds. -/
theorem c9_register_invariants_witness :
    0 ≤ register (runAdds freshFour []) 0 ∧
    register (runAdds freshFour []) 0 ≤ 33 - ((4:Nat):ℤ) :=
  (c9_register_invariants 4 freshFour rfl []).2.1 0

/-- C10: on every reachable estimator state, re-adding the same string a
second time changes no register, hence the whole state and the estimate
are unchanged. -/
theorem c10_add_idempotent (p : Nat) (hll0 : HyperLogLog)
    (h : NewHyperLogLog p = .ok hll0) (L : List String) (s : String) :
    Add (Add (runAdds hll0 L) s) s = Add (runAdds hll0 L) s ∧
    EstimateCardinality (Add (Add (runAdds hll0 L) s) s) =
      EstimateCardinality (Add (runAdds hll0 L) s) := by
  have hp := valid_of_new p hll0 h
  have hInv := Inv_runAdds p hll0 L (Inv_new p hll0 hp.1 hp.2 h)
  obtain ⟨h4, h16, hbits, hm, hlen, hreg⟩ := hInv
  have hi : (splitBinary (runAdds hll0 L).indexBits (hash s)).1 <
      (runAdds hll0 L).bucketGroup.length := by
    rw [hbits, hlen]
    exact splitBinary_index_lt p (hash s) h4 h16
  have key : ((runAdds hll0 L).bucketGroup.set
        (splitBinary (runAdds hll0 L).indexBits (hash s)).1
        (updateLongestRun
          ((runAdds hll0 L).bucketGroup.getD
            (splitBinary (runAdds hll0 L).indexBits (hash s)).1 0)
          (splitBinary (runAdds hll0 L).indexBits (hash s)).2)).set
        (splitBinary (runAdds hll0 L).indexBits (hash s)).1
        (updateLongestRun
          (((runAdds hll0 L).bucketGroup.set
            (splitBinary (runAdds hll0 L).indexBits (hash s)).1
            (updateLongestRun
              ((runAdds hll0 L).bucketGroup.getD
                (splitBinary (runAdds hll0 L).indexBits (hash s)).1 0)
              (splitBinary (runAdds hll0 L).indexBits (hash s)).2)).getD
            (splitBinary (runAdds hll0 L).indexBits (hash s)).1 0)
          (splitBinary (runAdds hll0 L).indexBits (hash s)).2) =
      (runAdds hll0 L).bucketGroup.set
        (splitBinary (runAdds hll0 L).indexBits (hash s)).1
        (updateLongestRun
          ((runAdds hll0 L).bucketGroup.getD
            (splitBinary (runAdds hll0 L).indexBits (hash s)).1 0)
          (splitBinary (runAdds hll0 L).indexBits (hash s)).2) := by
    rw [set_getD_self _ _ _ hi, updateLongestRun_idem, List.set_set]
  have hidem : Add (Add (runAdds hll0 L) s) s = Add (runAdds hll0 L) s :=
    congrArg (fun bg => { runAdds hll0 L with bucketGroup := bg }) key
  exact ⟨hidem, by rw [hidem]⟩

/-- Witness for C10 at precision 4 with no prior Adds. -/
theorem c10_add_idempotent_witness :
    Add (Add (runAdds freshFour []) "a") "a" = Add (runAdds freshFour []) "a" ∧
    EstimateCardinality (Add (Add (runAdds freshFour []) "a") "a") =
      EstimateCardinality (Add (runAdds freshFour []) "a") :=
  c10_add_idempotent 4 freshFour rfl [] "a"

/-- Helper: the reachable failing register state is all ones. -/
theorem failState_bucketGroup :
    failState.bucketGroup = List.replicate 16 1 := by decide

/-- Helper: the bias constant of the failing state. -/
theorem failState_constant : failState.constant = 0.673 := rfl

/-- Helper: the all-ones register state has no zero register. -/
theorem countZeroBuckets_ones :
    countZeroBuckets (List.replicate 16 (1:ℤ)) = 0 := by
  unfold countZeroBuckets
  rw [show (List.replicate 16 (1:ℤ)).filter (fun b => b == 0) = [] by decide]
  rfl

/-- Helper: the harmonicMean total of the all-ones register state. -/
theorem sumTerm_ones : sumTerm (List.replicate 16 (1:ℤ)) = 8 := by
  unfold sumTerm
  rw [List.map_replicate, List.sum_replicate]
  norm_num

/-- Helper: the length of the all-ones register state. -/
theorem bgLen_ones : bgLen (List.replicate 16 (1:ℤ)) = 16 := by
  simp [bgLen]

/-- Helper: the raw estimate of the all-ones register state at the
precision 4 bias constant: 0.673 * 16 * 16 / 8 = 21.536. -/
theorem rawEstimate_ones :
    rawEstimate (List.replicate 16 (1:ℤ)) 0.673 = 2692 / 125 := by
  unfold rawEstimate
  rw [sumTerm_ones, bgLen_ones]
  norm_num

/-- Helper: on the all-ones register state the correction divides the
bucket count by the zero register count 0, and the IEEE result is +Inf. -/
theorem correct_ones :
    correct (List.replicate 16 (1:ℤ)) (2692 / 125) = GoF.inf := by
  unfold correct
  rw [if_pos (by rw [bgLen_ones]; norm_num)]
  unfold smallRangeCorrection
  rw [countZeroBuckets_ones, bgLen_ones]
  unfold goDiv
  rw [if_pos rfl, if_pos (by norm_num)]
  show goMulFin 16 GoF.inf = GoF.inf
  unfold goMulFin
  rw [if_pos (by norm_num)]

/-- C1, evaluation of the code at the failing input: after the sixteen
adds every register is 1, so the zero register count V is 0 while the raw
estimate 21.536 is at most 2.5 * 16 = 40; the guard described by the claim
does not exist in the code, which applies the small range correction
anyway, divides the bucket count by V = 0, and produces +Inf instead of
returning the raw estimate. -/
theorem c1_missing_zero_register_guard :
    countZeroBuckets failState.bucketGroup = 0 ∧
    rawEstimate failState.bucketGroup failState.constant ≤
      2.5 * bgLen failState.bucketGroup ∧
    correct failState.bucketGroup
        (rawEstimate failState.bucketGroup failState.constant) = GoF.inf ∧
    correct failState.bucketGroup
        (rawEstimate failState.bucketGroup failState.constant) ≠
      GoF.fin (rawEstimate failState.bucketGroup failState.constant) := by
  rw [failState_bucketGroup, failState_constant, rawEstimate_ones]
  refine ⟨countZeroBuckets_ones, ?_, correct_ones, ?_⟩
  · rw [bgLen_ones]
    norm_num
  · rw [correct_ones]
    exact fun hcon => GoF.noConfusion hcon

/-- C3, evaluation of the code at the same failing input: the estimate of
this reachable state is int64 of +Inf, which is not a defined nonnegative
integer; the model returns none, and mainstream Go targets return the
minimum int64, a negative number. -/
theorem c3_estimate_undefined_at_failing_state :
    EstimateCardinality failState = none := by
  show goToInt64 (correct failState.bucketGroup
    (rawEstimate failState.bucketGroup failState.constant)) = none
  rw [failState_bucketGroup, failState_constant, rawEstimate_ones,
    correct_ones]
  rfl

end Pds
